import Mathlib

/-!
Shallow embedding of `src/src/lib.rs` (crate `constack`): a Treiber-style
lock-free stack built on a single `AtomicPtr<Node<T>>`.

Memory model used by the embedding: heap addresses are natural numbers,
`0` plays the role of `core::ptr::null_mut()`, and the heap is an
association list from addresses to live `Node` cells.  An allocation
counter `next` hands out fresh, never-reused nonzero addresses (the first
allocation gets address `1`).  Single-threaded executions are modelled:
`AtomicPtr::fetch_update` then invokes its closure exactly once on the
current value and the compare-and-swap succeeds.  Undefined behaviour
(dereferencing a pointer that is not a live allocation) is modelled by
the value `none` of an `Option`-typed result.
-/

set_option autoImplicit false

namespace Constack

/-- `struct Node<T> { prev: *mut Node<T>, value: T }` from lib.rs.
`prev` is a raw pointer, here an address (`0` = null). -/
structure Node (T : Type) where
  prev : Nat
  value : T
deriving Repr, DecidableEq

/-- The live heap: an association list from nonnull addresses to nodes.
A `Box::new` allocation conses a fresh entry; `Box::from_raw` + drop
removes it. -/
abbrev Heap (T : Type) : Type := List (Nat × Node T)

/-- Reading the node behind a pointer: `some` if the address is a live
allocation, `none` otherwise (a dangling dereference would be UB). -/
def hLookup {T : Type} : Heap T → Nat → Option (Node T)
  | [], _ => none
  | (b, n) :: t, a => if b = a then some n else hLookup t a

/-- Deallocating the box at address `a` (`Box::from_raw` going out of
scope).  Addresses are handed out freshly, so at most one entry carries
the key. -/
def hRemove {T : Type} : Heap T → Nat → Heap T
  | [], _ => []
  | (b, n) :: t, a => if b = a then hRemove t a else (b, n) :: hRemove t a

/-- `pub struct ConStack<T> { top: AtomicPtr<Node<T>> }`, together with
the allocator state (`heap`: live nodes, `next`: next fresh address). -/
structure ConStack (T : Type) where
  heap : Heap T
  next : Nat
  top : Nat
deriving Repr, DecidableEq

/-- `ConStack::new` / `Default::default()`: the default `AtomicPtr` is
null, no node is allocated.  Never fails.  Fresh addresses start at 1
(any nonzero start would do; `0` is reserved for null). -/
def stackNew {T : Type} : ConStack T :=
  { heap := [], next := 1, top := 0 }

/-- `AtomicPtr::fetch_update` in a single-threaded execution: the closure
`f` runs once on the current value; `Some new` stores `new` and yields
`Ok(previous)`, `None` leaves the value and yields `Err(previous)`.
Result: (the `Result`, the pointer value after the call). -/
def fetchUpdate (top : Nat) (f : Nat → Option Nat) : Except Nat Nat × Nat :=
  match f top with
  | some n => (Except.ok top, n)
  | none => (Except.error top, top)

/-- `ConStack::push` (lib.rs lines 26–39).  A fresh box is allocated for
`Node { prev: null_mut(), value }`; the `fetch_update` closure sets
`node.prev = prev` and answers `Some(node_ptr)`; `.unwrap()` on an `Err`
result would panic, modelled by `none`; `mem::forget(node)` leaves the
box alive in the heap. -/
def push {T : Type} (s : ConStack T) (v : T) : Option (ConStack T) :=
  let nodePtr := s.next
  match fetchUpdate s.top (fun _prev => some nodePtr) with
  | (Except.ok prev, newTop) =>
      some { heap := (nodePtr, { prev := prev, value := v }) :: s.heap,
             next := s.next + 1,
             top := newTop }
  | (Except.error _, _) => none

/-- The state `push` always produces (the closure always returns
`Some(node_ptr)`, so `fetch_update` always succeeds; see
`push_never_fails`). -/
def pushT {T : Type} (s : ConStack T) (v : T) : ConStack T :=
  { heap := (s.next, { prev := s.top, value := v }) :: s.heap,
    next := s.next + 1,
    top := s.next }

/-- `ConStack::pop` (lib.rs lines 41–54).  The `fetch_update` closure
returns `None` on a null top (so `fetch_update` yields `Err`, `.ok()`
yields `None`, and the state is untouched); otherwise it saves the top
pointer in `ptr`, dereferences it for `prev`, and the CAS swings `top`
to `prev`; `Box::from_raw(ptr)` then takes the value out and frees the
node.  The outer `none` marks the UB of dereferencing a dead address. -/
def pop {T : Type} (s : ConStack T) : Option (Option T × ConStack T) :=
  if s.top = 0 then
    some (none, s)
  else
    match hLookup s.heap s.top with
    | none => none
    | some node =>
        some (some node.value,
              { heap := hRemove s.heap s.top, next := s.next, top := node.prev })

/-- `n` successive calls to `pop`, collecting the results in call order;
`none` if any call hits UB. -/
def popN {T : Type} : Nat → ConStack T → Option (List (Option T) × ConStack T)
  | 0, s => some ([], s)
  | n + 1, s =>
      match pop s with
      | none => none
      | some (r, s') =>
          (popN n s').map (fun p => (r :: p.1, p.2))

/-- The values whose destructors run when a `ConStack` itself is dropped.
`ConStack<T>` declares no `Drop` impl (lib.rs has none), so Rust's
derived drop glue only drops the single field `top : AtomicPtr<Node<T>>`
— dropping an `AtomicPtr` is a no-op that frees no node and runs no `T`
destructor.  Every node still linked from `top` is leaked. -/
def dropDestroyedValues {T : Type} (_s : ConStack T) : List T := []

/-- Following `prev` links from address `a`, fuelled: `some` chain of the
values if the walk reaches null within `fuel` dereferences of live
nodes, `none` on fuel exhaustion or a dangling dereference. -/
def chainFrom {T : Type} (h : Heap T) : Nat → Nat → Option (List T)
  | 0, a => if a = 0 then some [] else none
  | fuel + 1, a =>
      if a = 0 then some []
      else
        match hLookup h a with
        | none => none
        | some node => (chainFrom h fuel node.prev).map (node.value :: ·)

/-- The abstract contents of the stack: the chain of values hanging off
`top`.  Fuel `s.top` suffices because `prev` links strictly decrease
along any chain of live nodes (a node's `prev` was allocated before the
node itself). -/
def toList {T : Type} (s : ConStack T) : Option (List T) :=
  chainFrom s.heap s.top s.top

/-- A node chain in heap `h` from address `a` down to null, carrying the
listed values top-first. -/
inductive Chain {T : Type} (h : Heap T) : Nat → List T → Prop
  | nil : Chain h 0 []
  | cons {a p : Nat} {v : T} {l : List T} :
      a ≠ 0 → hLookup h a = some { prev := p, value := v } →
      Chain h p l → Chain h a (v :: l)

/-- The pointer-structure invariant tying a stack state to its abstract
contents `l`. -/
structure Inv {T : Type} (s : ConStack T) (l : List T) : Prop where
  chain : Chain s.heap s.top l
  entries : ∀ p ∈ s.heap, p.1 < s.next ∧ p.2.prev < p.1
  top_lt : s.top < s.next

/-- The states (paired with their abstract contents) reachable from
`new()` by any finite sequence of `push` and `pop` calls. -/
inductive Reach {T : Type} : ConStack T → List T → Prop
  | new : Reach stackNew []
  | push {s : ConStack T} {l : List T} {v : T} {s' : ConStack T} :
      Reach s l → push s v = some s' → Reach s' (v :: l)
  | pop {s : ConStack T} {l : List T} {r : Option T} {s' : ConStack T} :
      Reach s l → pop s = some (r, s') → Reach s' l.tail

/-! ### Heap lemmas -/

theorem push_eq_pushT {T : Type} (s : ConStack T) (v : T) :
    push s v = some (pushT s v) := rfl

theorem hLookup_mem {T : Type} {h : Heap T} {a : Nat} {n : Node T}
    (hl : hLookup h a = some n) : (a, n) ∈ h := by
  induction h with
  | nil => simp [hLookup] at hl
  | cons p t ih =>
      obtain ⟨b, m⟩ := p
      by_cases hba : b = a
      · subst hba
        simp [hLookup] at hl
        subst hl
        exact List.mem_cons_self _ _
      · simp [hLookup, hba] at hl
        exact List.mem_cons_of_mem _ (ih hl)

theorem hLookup_hRemove {T : Type} (h : Heap T) (t a : Nat) :
    hLookup (hRemove h t) a = if a = t then none else hLookup h a := by
  induction h with
  | nil => simp [hRemove, hLookup]
  | cons p tl ih =>
      obtain ⟨b, m⟩ := p
      by_cases hbt : b = t
      · subst hbt
        by_cases hab : a = b
        · subst hab
          simp [hRemove, hLookup, ih]
        · simp [hRemove, hLookup, ih, hab, Ne.symm hab]
      · by_cases hab : b = a
        · have hat : a ≠ t := hab ▸ hbt
          simp [hRemove, hLookup, hbt, hab, hat]
        · simp [hRemove, hLookup, hbt, hab, ih]

theorem hRemove_sub {T : Type} {h : Heap T} {t : Nat} {p : Nat × Node T}
    (hp : p ∈ hRemove h t) : p ∈ h := by
  induction h with
  | nil => simp [hRemove] at hp
  | cons q tl ih =>
      obtain ⟨b, m⟩ := q
      by_cases hbt : b = t
      · simp only [hRemove, if_pos hbt] at hp
        exact List.mem_cons_of_mem _ (ih hp)
      · simp only [hRemove, if_neg hbt] at hp
        rcases List.mem_cons.mp hp with hp | hp
        · exact hp ▸ List.mem_cons_self _ _
        · exact List.mem_cons_of_mem _ (ih hp)

theorem hRemove_eq_self {T : Type} {h : Heap T} {t : Nat}
    (hk : ∀ p ∈ h, p.1 ≠ t) : hRemove h t = h := by
  induction h with
  | nil => rfl
  | cons q tl ih =>
      obtain ⟨b, m⟩ := q
      have hbt : b ≠ t := hk (b, m) (List.mem_cons_self _ _)
      simp only [hRemove, if_neg hbt]
      rw [ih (fun p hp => hk p (List.mem_cons_of_mem _ hp))]

/-! ### Chain lemmas -/

theorem chain_nil_top {T : Type} {h : Heap T} {a : Nat} (hc : Chain h a []) :
    a = 0 := by
  cases hc
  rfl

theorem chain_cons_elim {T : Type} {h : Heap T} {a : Nat} {v : T} {l : List T}
    (hc : Chain h a (v :: l)) :
    a ≠ 0 ∧ ∃ p, hLookup h a = some { prev := p, value := v } ∧ Chain h p l := by
  cases hc with
  | cons ha0 hl hc => exact ⟨ha0, _, hl, hc⟩

theorem chain_remove {T : Type} {h : Heap T} {t a : Nat} {l : List T}
    (hb : ∀ b n, hLookup h b = some n → n.prev < b)
    (hc : Chain h a l) : a < t → Chain (hRemove h t) a l := by
  induction hc with
  | nil => intro _; exact Chain.nil
  | @cons a p v l ha0 hl hc ih =>
      intro hat
      have hp : p < a := hb _ _ hl
      refine Chain.cons ha0 ?_ (ih (lt_trans hp hat))
      rw [hLookup_hRemove, if_neg (Nat.ne_of_lt hat)]
      exact hl

theorem chain_insert {T : Type} {h : Heap T} {k : Nat} {n : Node T} {a : Nat}
    {l : List T} (hb : ∀ b m, hLookup h b = some m → m.prev < b)
    (hc : Chain h a l) : a < k → Chain ((k, n) :: h) a l := by
  induction hc with
  | nil => intro _; exact Chain.nil
  | @cons a p v l ha0 hl hc ih =>
      intro hak
      have hp : p < a := hb _ _ hl
      refine Chain.cons ha0 ?_ (ih (lt_trans hp hak))
      show (if k = a then some n else hLookup h a) = some _
      rw [if_neg (Nat.ne_of_gt hak)]
      exact hl

theorem chain_chainFrom {T : Type} {h : Heap T} {a : Nat} {l : List T}
    (hb : ∀ b n, hLookup h b = some n → n.prev < b)
    (hc : Chain h a l) : ∀ fuel, a ≤ fuel → chainFrom h fuel a = some l := by
  induction hc with
  | nil =>
      intro fuel _
      cases fuel <;> simp [chainFrom]
  | @cons a p v l ha0 hl hc ih =>
      intro fuel hfuel
      have hp : p < a := hb _ _ hl
      obtain ⟨f, rfl⟩ : ∃ f, fuel = f + 1 := ⟨fuel - 1, by omega⟩
      simp [chainFrom, ha0, hl, ih f (by omega)]

/-! ### Invariant preservation -/

theorem inv_bounds {T : Type} {s : ConStack T} {l : List T} (h : Inv s l) :
    ∀ b n, hLookup s.heap b = some n → n.prev < b := by
  intro b n hl
  exact (h.entries (b, n) (hLookup_mem hl)).2

theorem inv_new {T : Type} : Inv (stackNew : ConStack T) [] := by
  refine ⟨Chain.nil, ?_, ?_⟩
  · intro p hp
    simp [stackNew] at hp
  · simp [stackNew]

theorem inv_push {T : Type} {s : ConStack T} {l : List T} (h : Inv s l)
    (v : T) : Inv (pushT s v) (v :: l) := by
  refine ⟨?_, ?_, ?_⟩
  · refine Chain.cons ?_ ?_ (chain_insert (inv_bounds h) h.chain h.top_lt)
    · have := h.top_lt
      simp only [pushT]
      omega
    · show (if s.next = s.next then _ else _) = _
      simp
  · intro p hp
    rcases List.mem_cons.mp hp with hp | hp
    · subst hp
      exact ⟨by simp [pushT], by simpa [pushT] using h.top_lt⟩
    · have := h.entries p hp
      exact ⟨by simp [pushT]; omega, this.2⟩
  · simp [pushT]

theorem pop_nil {T : Type} {s : ConStack T} (h : Inv s []) :
    s.top = 0 ∧ pop s = some (none, s) := by
  have ht : s.top = 0 := chain_nil_top h.chain
  exact ⟨ht, by simp [pop, ht]⟩

theorem pop_cons {T : Type} {s : ConStack T} {v : T} {l : List T}
    (h : Inv s (v :: l)) :
    ∃ s', pop s = some (some v, s') ∧ Inv s' l ∧
      s'.heap = hRemove s.heap s.top ∧ s'.next = s.next ∧ s'.top < s.top := by
  obtain ⟨ha0, p, hl, hc⟩ := chain_cons_elim h.chain
  have hp : p < s.top := inv_bounds h _ _ hl
  refine ⟨{ heap := hRemove s.heap s.top, next := s.next, top := p }, ?_, ?_, rfl, rfl, hp⟩
  · simp [pop, ha0, hl]
  · refine ⟨chain_remove (inv_bounds h) hc hp, ?_, ?_⟩
    · intro q hq
      exact h.entries q (hRemove_sub hq)
    · exact lt_trans hp h.top_lt

theorem reach_inv {T : Type} {s : ConStack T} {l : List T} (h : Reach s l) :
    Inv s l := by
  induction h with
  | new => exact inv_new
  | @push s l v s' hr hp ih =>
      rw [push_eq_pushT] at hp
      have hse : s' = pushT s v := (Option.some.inj hp).symm
      subst hse
      exact inv_push ih v
  | @pop s l r s' hr hp ih =>
      cases l with
      | nil =>
          rw [(pop_nil ih).2] at hp
          injection hp with hp
          injection hp with hr2 hs2
          subst hr2
          subst hs2
          exact ih
      | cons v l' =>
          obtain ⟨s'', hps, hinv, _, _, _⟩ := pop_cons ih
          rw [hps] at hp
          injection hp with hp
          injection hp with hr2 hs2
          subst hr2
          subst hs2
          exact hinv

theorem toList_eq {T : Type} {s : ConStack T} {l : List T} (h : Inv s l) :
    toList s = some l :=
  chain_chainFrom (inv_bounds h) h.chain s.top le_rfl

/-! ### The claims -/

/-- C1: for every reachable stack state, `pop` returns the empty
indicator (leaving the state untouched) if and only if the stack is
empty; otherwise it returns exactly the most recently pushed
not-yet-popped value, and that value is removed from the stack. -/
theorem pop_contract {T : Type} (s : ConStack T) (l : List T)
    (h : Reach s l) :
    (pop s = some (none, s) ↔ l = []) ∧
    (∀ v l', l = v :: l' →
       ∃ s', pop s = some (some v, s') ∧ Reach s' l' ∧ toList s' = some l') := by
  have hi := reach_inv h
  constructor
  · constructor
    · intro hp
      cases l with
      | nil => rfl
      | cons v l' =>
          obtain ⟨s', hps, _, _, _, _⟩ := pop_cons hi
          rw [hps] at hp
          injection hp with hp
          injection hp with hr2 _
          exact absurd hr2 (Option.some_ne_none v)
    · intro hl
      subst hl
      exact (pop_nil hi).2
  · intro v l' hl
    subst hl
    obtain ⟨s', hps, hinv, _, _, _⟩ := pop_cons hi
    exact ⟨s', hps, Reach.pop h hps, toList_eq hinv⟩

/-- Witness for C1 at the concrete reachable state `push 5` on a fresh
stack: `pop` evaluates to `Some 5` with the node removed, and the
theorem's emptiness criterion instantiates there. -/
theorem pop_contract_witness :
    pop (pushT (stackNew : ConStack Nat) 5) =
        some (some 5, { heap := [], next := 2, top := 0 }) ∧
      (pop (pushT (stackNew : ConStack Nat) 5) =
          some (none, pushT (stackNew : ConStack Nat) 5) ↔ ([5] : List Nat) = []) :=
  ⟨rfl, (pop_contract (pushT (stackNew : ConStack Nat) 5) [5]
    (Reach.push Reach.new rfl)).1⟩

/-- C2: for every reachable state, following `prev` links from the top
yields a finite chain ending at null whose values are exactly the
not-yet-popped pushed values, most-recent-first; the invariant is
preserved by every `push` and every `pop`. -/
theorem chain_invariant {T : Type} (s : ConStack T) (l : List T)
    (h : Reach s l) :
    toList s = some l ∧
      (∀ v s', push s v = some s' → toList s' = some (v :: l)) ∧
      (∀ r s', pop s = some (r, s') → toList s' = some l.tail) := by
  have hi := reach_inv h
  refine ⟨toList_eq hi, ?_, ?_⟩
  · intro v s' hp
    rw [push_eq_pushT] at hp
    have hse := (Option.some.inj hp).symm
    subst hse
    exact toList_eq (inv_push hi v)
  · intro r s' hp
    exact toList_eq (reach_inv (Reach.pop h hp))

/-- Witness for C2 at the concrete reachable state `push 7` on a fresh
stack: the chain from the top reads back exactly `[7]`. -/
theorem chain_invariant_witness :
    toList (pushT (stackNew : ConStack Nat) 7) = some [7] :=
  (chain_invariant (pushT (stackNew : ConStack Nat) 7) [7]
    (Reach.push Reach.new rfl)).1

/-- C3 evidence: a stack holding one unpopped node (`k = 1`, contents
`[37]`) runs zero value destructors at teardown, because `ConStack` has
no `Drop` impl and the derived drop glue only drops the `AtomicPtr`
field — the claim's `k` destructions do not happen. -/
theorem drop_leaks_unpopped :
    toList (pushT (stackNew : ConStack Nat) 37) = some [37] ∧
      dropDestroyedValues (pushT (stackNew : ConStack Nat) 37) = [] :=
  ⟨rfl, rfl⟩

/-- C4: pushing `v` onto an empty stack and popping returns `v`, and a
subsequent pop returns the empty indicator. -/
theorem round_trip {T : Type} (v : T) :
    ∃ s₁ s₂, push (stackNew : ConStack T) v = some s₁ ∧
      pop s₁ = some (some v, s₂) ∧ pop s₂ = some (none, s₂) :=
  ⟨pushT stackNew v, { heap := [], next := 2, top := 0 }, rfl, rfl, rfl⟩

/-- C5: pushing `1, 2, 3` in order onto an empty stack and popping three
times yields `3, 2, 1`. -/
theorem lifo_order :
    ((push (stackNew : ConStack Nat) 1).bind fun s =>
     (push s 2).bind fun s =>
     (push s 3).bind fun s =>
     (pop s).bind fun p =>
     (pop p.2).bind fun q =>
     (pop q.2).map fun r => (p.1, q.1, r.1))
    = some (some 3, some 2, some 1) := by
  decide

/-- C6: the `fetch_update` closure in `push` always returns
`Some(node_ptr)`, so the update always succeeds, the `.unwrap()` on its
result never panics, and `push` always produces the pushed state. -/
theorem push_never_fails {T : Type} (s : ConStack T) (v : T) :
    push s v = some (pushT s v) := rfl

/-- C7: on any stack state whose top is null, `pop` returns the empty
indicator and leaves the state (top reference and all nodes) unchanged;
hence any number of repeated pops all return the empty indicator. -/
theorem pop_empty_idempotent {T : Type} (s : ConStack T) (h : s.top = 0) :
    pop s = some (none, s) ∧
      ∀ n, popN n s = some (List.replicate n none, s) := by
  have h1 : pop s = some (none, s) := by simp [pop, h]
  refine ⟨h1, ?_⟩
  intro n
  induction n with
  | zero => simp [popN]
  | succ n ih => simp [popN, h1, ih, List.replicate_succ]

/-- Witness for C7 on the concrete empty stack: three repeated pops all
return the empty indicator and leave the state unchanged. -/
theorem pop_empty_idempotent_witness :
    (stackNew : ConStack Nat).top = 0 ∧
      popN 3 (stackNew : ConStack Nat) = some ([none, none, none], stackNew) :=
  ⟨rfl, by simpa using (pop_empty_idempotent (stackNew : ConStack Nat) rfl).2 3⟩

/-- C8: `new()` never fails and constructs an empty stack: the top
reference is null and the first `pop` returns the empty indicator. -/
theorem new_constructs_empty (T : Type) :
    (stackNew : ConStack T).top = 0 ∧
      pop (stackNew : ConStack T) = some (none, stackNew) :=
  ⟨rfl, rfl⟩

/-- C9: on every reachable state, `push v` then `pop` returns `v` and
restores the stack exactly: the top pointer and the set of live nodes
are those of the original state (the Rust `ConStack` value consists of
exactly the `top` pointer), so the abstract contents agree too. -/
theorem push_pop_identity {T : Type} (s : ConStack T) (l : List T)
    (h : Reach s l) (v : T) :
    push s v = some (pushT s v) ∧
      pop (pushT s v) =
        some (some v, { heap := s.heap, next := s.next + 1, top := s.top }) ∧
      toList ({ heap := s.heap, next := s.next + 1, top := s.top } : ConStack T)
        = toList s := by
  have hi := reach_inv h
  have hn0 : ¬ (pushT s v).top = 0 := by
    have := hi.top_lt
    simp only [pushT]
    omega
  have hl : hLookup (pushT s v).heap (pushT s v).top
      = some { prev := s.top, value := v } := by
    simp [pushT, hLookup]
  have hrem : hRemove (pushT s v).heap (pushT s v).top = s.heap := by
    show (if s.next = s.next then hRemove s.heap s.next else _) = s.heap
    rw [if_pos rfl]
    exact hRemove_eq_self (fun p hp => Nat.ne_of_lt (hi.entries p hp).1)
  refine ⟨rfl, ?_, rfl⟩
  rw [pop, if_neg hn0, hl, hrem]
  rfl

/-- Witness for C9 at the concrete reachable state `new()` with `v = 9`:
push-then-pop returns 9 and restores the empty stack's top and heap. -/
theorem push_pop_identity_witness :
    pop (pushT (stackNew : ConStack Nat) 9) =
      some (some 9, { heap := [], next := 2, top := 0 }) :=
  (push_pop_identity (stackNew : ConStack Nat) [] Reach.new 9).2.1

end Constack
